import Mathlib

/-!
Shallow embedding of the spectral-to-visual transform and playback-sync engine
of the Audio_Music_Unity repository (src/src/audioFile_matplotlib_visualiser.py,
src/src/alternativeVisualization.py, src/src/deepseekVisualise.py), together
with theorems settling the specification's claims about it.
-/

namespace AudioVis

/-- Python `int(x)` applied to a float: truncation toward zero. -/
def pyInt (q : ℚ) : ℤ := if 0 ≤ q then ⌊q⌋ else ⌈q⌉

/-- Python float `x % m`: `x - m * floor(x / m)` (sign of the divisor). -/
def pyMod (x m : ℚ) : ℚ := x - m * ⌊x / m⌋

/-! ### Bar binning (precompute_animation_data, lines 152-164 of
audioFile_matplotlib_visualiser.py; precompute_circular_data, lines 124-136 of
alternativeVisualization.py and lines 120-133 of deepseekVisualise.py) -/

/-- `bins_per_bar = num_freq_bins // self.num_bars`. -/
def bins_per_bar (N B : ℕ) : ℕ := N / B

/-- `start_idx = i * bins_per_bar`. -/
def bar_start (N B i : ℕ) : ℕ := i * bins_per_bar N B

/-- End index of bar `i` in audioFile_matplotlib_visualiser.py:
`end_idx = num_freq_bins if i == num_bars - 1 else (i+1) * bins_per_bar`,
then `end_idx = min(end_idx, num_freq_bins)`. -/
def bar_end (N B i : ℕ) : ℕ :=
  min (if i = B - 1 then N else (i + 1) * bins_per_bar N B) N

/-- End index of bar `i` in alternativeVisualization.py / deepseekVisualise.py:
`end_idx = min((i + 1) * bins_per_bar, num_freq_bins)` for every bar. -/
def bar_end_alt (N B i : ℕ) : ℕ := min ((i + 1) * bins_per_bar N B) N

/-- Frequency bin `j` falls in bar `i`'s group (matplotlib visualiser). -/
def assigned (N B i j : ℕ) : Prop := bar_start N B i ≤ j ∧ j < bar_end N B i

/-- Frequency bin `j` falls in bar `i`'s group (alternative/circular variant). -/
def assigned_alt (N B i j : ℕ) : Prop := bar_start N B i ≤ j ∧ j < bar_end_alt N B i

instance (N B i j : ℕ) : Decidable (assigned N B i j) := by
  unfold assigned; infer_instance

instance (N B i j : ℕ) : Decidable (assigned_alt N B i j) := by
  unfold assigned_alt; infer_instance

/-- The bar that the matplotlib binning assigns bin `j` to. -/
def bar_of (N B j : ℕ) : ℕ :=
  if bins_per_bar N B = 0 then B - 1 else min (j / bins_per_bar N B) (B - 1)

lemma bins_per_bar_mul_le (N B : ℕ) : B * bins_per_bar N B ≤ N := by
  unfold bins_per_bar
  exact Nat.mul_div_le N B

lemma lt_div_succ_mul (j b : ℕ) (hb : 0 < b) : j < (j / b + 1) * b := by
  have h1 := Nat.div_add_mod j b
  have h2 : j % b < b := Nat.mod_lt j hb
  have h3 : (j / b + 1) * b = b * (j / b) + b := by ring
  omega

lemma bar_of_lt (N B j : ℕ) (hB : 1 ≤ B) : bar_of N B j < B := by
  unfold bar_of
  split
  · omega
  · have : min (j / bins_per_bar N B) (B - 1) ≤ B - 1 := Nat.min_le_right _ _
    omega

lemma assigned_bar_of (N B j : ℕ) (hB : 1 ≤ B) (hj : j < N) :
    assigned N B (bar_of N B j) j := by
  set b := bins_per_bar N B with hb
  unfold assigned bar_start bar_end bar_of
  rw [← hb]
  by_cases h0 : b = 0
  · rw [if_pos h0, if_pos rfl]
    exact ⟨by simp [h0], by simpa [Nat.min_self] using hj⟩
  · rw [if_neg h0]
    have hbpos : 0 < b := Nat.pos_of_ne_zero h0
    have hstart : min (j / b) (B - 1) * b ≤ j :=
      le_trans (Nat.mul_le_mul_right b (Nat.min_le_left _ _)) (Nat.div_mul_le_self j b)
    refine ⟨hstart, ?_⟩
    rcases le_or_lt (B - 1) (j / b) with hge | hlt
    · rw [Nat.min_eq_right hge, if_pos rfl]
      simpa [Nat.min_self] using hj
    · rw [Nat.min_eq_left (le_of_lt hlt), if_neg (Nat.ne_of_lt hlt)]
      have hj2 : j < (j / b + 1) * b := lt_div_succ_mul j b hbpos
      have hend : (j / b + 1) * b ≤ N := by
        have hle : j / b + 1 ≤ B := by omega
        calc (j / b + 1) * b ≤ B * b := Nat.mul_le_mul_right b hle
          _ ≤ N := bins_per_bar_mul_le N B
      exact lt_min hj2 (lt_of_lt_of_le hj2 hend)

lemma assigned_unique (N B j i : ℕ) (hB : 1 ≤ B) (hi : i < B)
    (ha : assigned N B i j) : i = bar_of N B j := by
  set b := bins_per_bar N B with hb
  unfold assigned bar_start bar_end at ha
  unfold bar_of
  rw [← hb] at ha ⊢
  obtain ⟨h1, h2⟩ := ha
  by_cases h0 : b = 0
  · rw [if_pos h0]
    by_contra hne
    have hine : i ≠ B - 1 := by omega
    rw [if_neg hine] at h2
    have hc : j < (i + 1) * b := lt_of_lt_of_le h2 (Nat.min_le_left _ _)
    rw [h0] at hc
    omega
  · rw [if_neg h0]
    have hbpos : 0 < b := Nat.pos_of_ne_zero h0
    by_cases hlast : i = B - 1
    · subst hlast
      have hge : B - 1 ≤ j / b := by
        rw [Nat.le_div_iff_mul_le hbpos]
        exact h1
      rw [Nat.min_eq_right hge]
    · rw [if_neg hlast] at h2
      have h2' : j < (i + 1) * b := lt_of_lt_of_le h2 (Nat.min_le_left _ _)
      have hdiv : j / b = i := by
        rcases Nat.lt_trichotomy (j / b) i with hlt | heq | hgt
        · have hc : (j / b + 1) * b ≤ i * b := Nat.mul_le_mul_right b hlt
          have hj2 : j < (j / b + 1) * b := lt_div_succ_mul j b hbpos
          omega
        · exact heq
        · have hc : (i + 1) * b ≤ j / b * b := Nat.mul_le_mul_right b hgt
          have hc2 : j / b * b ≤ j := Nat.div_mul_le_self j b
          omega
      rw [hdiv]
      exact (Nat.min_eq_left (by omega)).symm

/-- Every bin `j < N` lies in exactly one of the `B` groups of the
remainder-absorbing (matplotlib) binning. -/
lemma matplotlib_partition (N B j : ℕ) (hB : 1 ≤ B) (hj : j < N) :
    ∃! i, i < B ∧ assigned N B i j := by
  refine ⟨bar_of N B j, ⟨bar_of_lt N B j hB, assigned_bar_of N B j hB hj⟩, ?_⟩
  rintro i ⟨hi, ha⟩
  exact assigned_unique N B j i hB hi ha

/-- In the alternative binning, some bar contains bin `j` iff
`j < num_bars * bins_per_bar`: the trailing `N mod B` bins are never used. -/
lemma alt_coverage (N B j : ℕ) (_hB : 1 ≤ B) :
    (∃ i, i < B ∧ assigned_alt N B i j) ↔ j < B * bins_per_bar N B := by
  constructor
  · rintro ⟨i, hi, h1, h2⟩
    unfold bar_end_alt at h2
    have h3 : j < (i + 1) * bins_per_bar N B := lt_of_lt_of_le h2 (Nat.min_le_left _ _)
    have hle : (i + 1) * bins_per_bar N B ≤ B * bins_per_bar N B :=
      Nat.mul_le_mul_right _ (by omega)
    omega
  · intro hj
    set b := bins_per_bar N B with hb
    have hbpos : 0 < b := by
      rcases Nat.eq_zero_or_pos b with h | h
      · rw [h] at hj; omega
      · exact h
    have hdb : j / b < B := by
      rw [Nat.div_lt_iff_lt_mul hbpos]
      omega
    refine ⟨j / b, hdb, ?_, ?_⟩
    · unfold bar_start
      rw [← hb]
      exact Nat.div_mul_le_self j b
    · unfold bar_end_alt
      rw [← hb]
      have hj2 : j < (j / b + 1) * b := lt_div_succ_mul j b hbpos
      have hle : (j / b + 1) * b ≤ N := by
        calc (j / b + 1) * b ≤ B * b := Nat.mul_le_mul_right b (by omega)
          _ ≤ N := bins_per_bar_mul_le N B
      exact lt_min hj2 (lt_of_lt_of_le hj2 hle)

end AudioVis

namespace AudioVis

/-- C1 counterexample: with the real default sizes (`n_fft = 2048` gives
`N = 1025` frequency bins, `num_bars = 100`), the binning of
alternativeVisualization.py assigns frequency bin **1000** to no bar at all:
the claim that every input bin is assigned to exactly one bar is false for
that cited binning step. -/
theorem alt_binning_drops_bin_1000 :
    1000 < 1025 ∧ ∀ i, i < 100 → ¬ assigned_alt 1025 100 i 1000 := by
  decide

/-- C1 (amended): the matplotlib visualiser's binning
(`bins_per_bar = N // B`, last bar absorbing the remainder) assigns every
bin to exactly one bar; the alternative/circular binning covers exactly the
bins below `B * bins_per_bar`, dropping the `N mod B` trailing bins. -/
theorem binning_coverage (N B j : ℕ) (hB : 1 ≤ B) (hj : j < N) :
    (∃! i, i < B ∧ assigned N B i j) ∧
    ((∃ i, i < B ∧ assigned_alt N B i j) ↔ j < B * bins_per_bar N B) :=
  ⟨matplotlib_partition N B j hB hj, alt_coverage N B j hB⟩

/-- Witness for `binning_coverage` at `N = 1025`, `B = 100`, `j = 7`. -/
theorem binning_coverage_witness :
    (1 ≤ 100 ∧ 7 < 1025) ∧
    ((∃! i, i < 100 ∧ assigned 1025 100 i 7) ∧
     ((∃ i, i < 100 ∧ assigned_alt 1025 100 i 7) ↔ 7 < 100 * bins_per_bar 1025 100)) :=
  ⟨by decide, binning_coverage 1025 100 7 (by decide) (by decide)⟩

end AudioVis

namespace AudioVis

/-! ### Playback clock (audioFile_matplotlib_visualiser.py, lines 250-287)

State fields `is_playing` and `audio_start_time` of `FileVisualizer`;
wall-clock instants are modelled as exact rationals. -/

structure PlaybackState where
  is_playing : Bool
  audio_start_time : Option ℚ

/-- State at construction time: `self.is_playing = False`,
`self.audio_start_time = None`. -/
def initPlayback : PlaybackState := ⟨false, none⟩

/-- `play_audio` (success path): sets `is_playing = True` and records
`audio_start_time = time.time()` (`now`). -/
def play_audio (_s : PlaybackState) (now : ℚ) : PlaybackState := ⟨true, some now⟩

/-- `stop_audio`: sets `is_playing = False` (leaves `audio_start_time` as is). -/
def stop_audio (s : PlaybackState) : PlaybackState := ⟨false, s.audio_start_time⟩

/-- `get_audio_position`: `if self.audio_start_time and self.is_playing:
return time.time() - self.audio_start_time; return 0`.  Python truthiness of
`audio_start_time` is `None`-or-zero falsy. -/
def get_audio_position (s : PlaybackState) (now : ℚ) : ℚ :=
  match s.audio_start_time with
  | some t => if t ≠ 0 ∧ s.is_playing = true then now - t else 0
  | none => 0

/-- `get_current_frame_from_audio`: returns `None` when not playing, else
`min(int(audio_time * sr / hop_length), frame_count - 1)`. -/
def get_current_frame_from_audio (s : PlaybackState) (now sr hop : ℚ)
    (frame_count : ℤ) : Option ℤ :=
  if s.is_playing = false then none
  else some (min (pyInt (get_audio_position s now * sr / hop)) (frame_count - 1))

lemma pyInt_eq_floor (q : ℚ) (h : 0 ≤ q) : pyInt q = ⌊q⌋ := by
  unfold pyInt
  rw [if_pos h]

end AudioVis

namespace AudioVis

/-- C2: while Playing (after `play_audio` at wall time `t > 0`, queried at
`now ≥ t`), `get_audio_position` returns `now - t` and
`get_current_frame_from_audio` returns
`min(floor(elapsed * sr / hop), frame_count - 1)`; when Stopped (initial
state, or after `stop_audio`), the position is `0` and the frame query is
absent. -/
theorem playback_clock_correct (s0 : PlaybackState) (t now sr hop : ℚ)
    (frame_count : ℤ) (ht : 0 < t) (hnow : t ≤ now) (hsr : 0 ≤ sr)
    (hhop : 0 < hop) :
    (get_audio_position (play_audio s0 t) now = now - t ∧
     get_current_frame_from_audio (play_audio s0 t) now sr hop frame_count =
       some (min ⌊(now - t) * sr / hop⌋ (frame_count - 1))) ∧
    (get_audio_position initPlayback now = 0 ∧
     get_current_frame_from_audio initPlayback now sr hop frame_count = none) ∧
    (get_audio_position (stop_audio (play_audio s0 t)) now = 0 ∧
     get_current_frame_from_audio (stop_audio (play_audio s0 t)) now sr hop
       frame_count = none) := by
  have hpos : get_audio_position (play_audio s0 t) now = now - t := by
    simp [get_audio_position, play_audio, ne_of_gt ht]
  refine ⟨⟨hpos, ?_⟩, ⟨rfl, rfl⟩, ⟨?_, rfl⟩⟩
  · have harg : 0 ≤ (now - t) * sr / hop :=
      div_nonneg (mul_nonneg (by linarith) hsr) (le_of_lt hhop)
    unfold get_current_frame_from_audio
    rw [if_neg (show ¬ (play_audio s0 t).is_playing = false by simp [play_audio]),
      hpos, pyInt_eq_floor _ harg]
  · simp [get_audio_position, stop_audio, play_audio]

/-- Witness for `playback_clock_correct`: start at `t = 1`, query at
`now = 2`, `sr = 22050`, `hop = 256`, `frame_count = 1000` (one second of
playback maps to frame `min(⌊22050/256⌋, 999) = 86`, the spec's own test). -/
theorem playback_clock_correct_witness :
    ((0 : ℚ) < 1 ∧ (1 : ℚ) ≤ 2 ∧ (0 : ℚ) ≤ 22050 ∧ (0 : ℚ) < 256) ∧
    ((get_audio_position (play_audio initPlayback 1) 2 = 2 - 1 ∧
      get_current_frame_from_audio (play_audio initPlayback 1) 2 22050 256 1000 =
        some (min ⌊((2 : ℚ) - 1) * 22050 / 256⌋ (1000 - 1))) ∧
     (get_audio_position initPlayback 2 = 0 ∧
      get_current_frame_from_audio initPlayback 2 22050 256 1000 = none) ∧
     (get_audio_position (stop_audio (play_audio initPlayback 1)) 2 = 0 ∧
      get_current_frame_from_audio (stop_audio (play_audio initPlayback 1)) 2
        22050 256 1000 = none)) :=
  ⟨by norm_num,
   playback_clock_correct initPlayback 1 2 22050 256 1000 (by norm_num)
     (by norm_num) (by norm_num) (by norm_num)⟩

end AudioVis

namespace AudioVis

/-! ### Render-tick drift reconciliation (`animate`, lines 289-308 of
audioFile_matplotlib_visualiser.py) -/

/-- One `animate` tick's frame-selection and sync-counter logic.  `frame` is
the nominal (FuncAnimation) frame counter, `audio_frame` the result of
`get_current_frame_from_audio`, `num_precomputed` the length of
`precomputed_heights`.  Returns the displayed frame and the updated
`sync_adjustments` counter. -/
def animate_sync (frame : ℤ) (is_playing : Bool) (audio_frame : Option ℤ)
    (sync_adjustments : ℕ) (num_precomputed : ℤ) : ℤ × ℕ :=
  let r :=
    if frame = 0 ∧ is_playing = false then ((0 : ℤ), sync_adjustments)
    else
      match audio_frame with
      | some af =>
          if 2 < |af - frame| then (af, sync_adjustments + 1)
          else (frame, sync_adjustments)
      | none => (frame, sync_adjustments)
  (min r.1 (num_precomputed - 1), r.2)

/-- C3: at a tick where an expected frame is available (`is_playing` and the
audio-frame query returned `af`, both frames within the precomputed range),
a discrepancy `|af - frame| > 2` snaps the displayed frame to `af` and
increments the counter by exactly one, while a discrepancy `≤ 2` leaves the
nominal frame displayed and the counter unchanged. -/
theorem drift_correction (frame af : ℤ) (sync_adjustments : ℕ)
    (num_precomputed : ℤ) (haf : af ≤ num_precomputed - 1)
    (hframe : frame ≤ num_precomputed - 1) :
    (2 < |af - frame| →
      animate_sync frame true (some af) sync_adjustments num_precomputed =
        (af, sync_adjustments + 1)) ∧
    (|af - frame| ≤ 2 →
      animate_sync frame true (some af) sync_adjustments num_precomputed =
        (frame, sync_adjustments)) := by
  unfold animate_sync
  constructor
  · intro h
    simp only [Bool.true_eq_false, and_false, if_neg, reduceIte, if_pos h]
    rw [min_eq_left haf]
  · intro h
    have h2 : ¬ 2 < |af - frame| := not_lt.mpr h
    simp only [Bool.true_eq_false, and_false, if_neg, reduceIte, if_neg h2]
    rw [min_eq_left hframe]

/-- Witness for `drift_correction`: the spec's synthetic scenario — nominal
counter 5 frames ahead of the expected frame 0 snaps once; and a nominal
counter 1 frame ahead is left alone. -/
theorem drift_correction_witness :
    ((0 : ℤ) ≤ 999 ∧ (5 : ℤ) ≤ 999 ∧ (2 : ℤ) < |(0 : ℤ) - 5|) ∧
    animate_sync 5 true (some 0) 3 1000 = (0, 4) := by
  refine ⟨by decide, ?_⟩
  have h := (drift_correction 5 0 3 1000 (by decide) (by decide)).1 (by decide)
  exact h

end AudioVis

namespace AudioVis

/-! ### Bar-height precomputation (precompute_animation_data, lines 124-184
of audioFile_matplotlib_visualiser.py, and precompute_circular_data of
deepseekVisualise.py / alternativeVisualization.py).  Float arithmetic is
modelled exactly over the reals. -/

noncomputable section

/-- `np.linspace(a, b, n)`: `n` evenly spaced values from `a` to `b`
inclusive. -/
def linspace (a b : ℝ) (n : ℕ) : List ℝ :=
  if n = 1 then [a]
  else (List.range n).map (fun k : ℕ => a + (b - a) * k / (n - 1))

/-- `freq_data = freq_data * np.linspace(1.0, 0.3, len(freq_data))`
(lines 149-150). -/
def apply_freq_weights (freq_data : List ℝ) : List ℝ :=
  List.zipWith (· * ·) freq_data (linspace 1 (3 / 10) freq_data.length)

/-- `np.sqrt(np.mean(l[s:e] ** 2))` — root-mean-square of a slice. -/
def slice_rms (l : List ℝ) (s e : ℕ) : ℝ :=
  let seg := (l.drop s).take (e - s)
  Real.sqrt (((seg.map fun x => x ^ 2).sum) / seg.length)

/-- Raw (pre-smoothing) bar heights of one frame in
audioFile_matplotlib_visualiser.py (lines 153-171): remainder-absorbing
binning, RMS, floored at `1e-6`. -/
def raw_bar_heights (freq_data : List ℝ) (num_bars : ℕ) : List ℝ :=
  let N := freq_data.length
  let b := N / num_bars
  (List.range num_bars).map fun i =>
    let s := i * b
    let e := min (if i = num_bars - 1 then N else (i + 1) * b) N
    if s < e then max (slice_rms freq_data s e) (1 / 1000000) else (1 / 1000000)

/-- Raw bar heights of one frame in deepseekVisualise.py (lines 121-133) and
alternativeVisualization.py (lines 124-136): truncating binning, RMS,
floored at `0.01`. -/
def raw_bar_heights_circular (freq_data : List ℝ) (num_bars : ℕ) : List ℝ :=
  let N := freq_data.length
  let b := N / num_bars
  (List.range num_bars).map fun i =>
    let s := i * b
    let e := min ((i + 1) * b) N
    if s < e then max (slice_rms freq_data s e) (1 / 100) else (1 / 100)

/-- The per-frame smoothing pass (lines 174-177):
`[sf * prev + (1 - sf) * curr for prev, curr in zip(prev_heights, bar_heights)]`. -/
def smooth_heights (sf : ℝ) (prev curr : List ℝ) : List ℝ :=
  List.zipWith (fun p c => sf * p + (1 - sf) * c) prev curr

/-- The precompute loop: state is `(prev_heights, precomputed_heights)` after
processing frames `0 .. n-1`; frame `n`'s raw heights are smoothed against
`prev_heights` when present and appended. -/
def precompute_loop (raw : ℕ → List ℝ) (sf : ℝ) : ℕ → Option (List ℝ) × List (List ℝ)
  | 0 => (none, [])
  | n + 1 =>
    let st := precompute_loop raw sf n
    let bh := raw n
    let bh2 := match st.1 with
      | none => bh
      | some p => smooth_heights sf p bh
    (some bh2, st.2 ++ [bh2])

/-- The per-frame height sequence the loop computes, as a recurrence. -/
def heights_rec (raw : ℕ → List ℝ) (sf : ℝ) : ℕ → List ℝ
  | 0 => raw 0
  | f + 1 => smooth_heights sf (heights_rec raw sf f) (raw (f + 1))

/-- `precompute_animation_data`'s height table for a given smoothing factor:
column `f` of the magnitude matrix is weighted, binned and smoothed against
the previous frame's smoothed heights. -/
def precompute_heights_with (sf : ℝ) (mag : ℕ → List ℝ)
    (num_bars frame_count : ℕ) : List (List ℝ) :=
  (precompute_loop (fun f => raw_bar_heights (apply_freq_weights (mag f)) num_bars)
    sf frame_count).2

/-- `self.precomputed_heights` of audioFile_matplotlib_visualiser.py
(`smoothing_factor = 0.5`, line 175). -/
def precompute_animation_heights (mag : ℕ → List ℝ) (num_bars frame_count : ℕ) :
    List (List ℝ) :=
  precompute_heights_with (1 / 2) mag num_bars frame_count

/-- `self.precomputed_heights` of deepseekVisualise.py
(`self.smoothing_factor = 0.5`, line 35). -/
def precompute_circular_heights (mag : ℕ → List ℝ) (num_bars frame_count : ℕ) :
    List (List ℝ) :=
  (precompute_loop
    (fun f => raw_bar_heights_circular (apply_freq_weights (mag f)) num_bars)
    (1 / 2) frame_count).2

/-- Entry of a precomputed height table: frame `f`, bar `i`. -/
def entry (H : List (List ℝ)) (f i : ℕ) : ℝ := (H.getD f []).getD i 0

end

lemma precompute_loop_snd_length (raw : ℕ → List ℝ) (sf : ℝ) (n : ℕ) :
    ((precompute_loop raw sf n).2).length = n := by
  induction n with
  | zero => rfl
  | succ m ih => simp [precompute_loop, ih]

lemma precompute_loop_fst (raw : ℕ → List ℝ) (sf : ℝ) (n : ℕ) :
    (precompute_loop raw sf (n + 1)).1 = some (heights_rec raw sf n) := by
  induction n with
  | zero => rfl
  | succ m ih =>
    have step : (precompute_loop raw sf (m + 1 + 1)).1 =
        some (match (precompute_loop raw sf (m + 1)).1 with
          | none => raw (m + 1)
          | some p => smooth_heights sf p (raw (m + 1))) := rfl
    rw [step, ih]
    rfl

lemma precompute_loop_snd_succ (raw : ℕ → List ℝ) (sf : ℝ) (n : ℕ) :
    (precompute_loop raw sf (n + 1)).2 =
      (precompute_loop raw sf n).2 ++ [heights_rec raw sf n] := by
  cases n with
  | zero => rfl
  | succ m =>
    have step : (precompute_loop raw sf (m + 1 + 1)).2 =
        (precompute_loop raw sf (m + 1)).2 ++
          [match (precompute_loop raw sf (m + 1)).1 with
           | none => raw (m + 1)
           | some p => smooth_heights sf p (raw (m + 1))] := rfl
    rw [step, precompute_loop_fst raw sf m]
    rfl

lemma precompute_loop_getElem (raw : ℕ → List ℝ) (sf : ℝ) (n f : ℕ) (hf : f < n) :
    ((precompute_loop raw sf n).2)[f]? = some (heights_rec raw sf f) := by
  induction n with
  | zero => omega
  | succ m ih =>
    rw [precompute_loop_snd_succ]
    rcases Nat.lt_or_ge f m with hlt | hge
    · rw [List.getElem?_append_left (by rw [precompute_loop_snd_length]; exact hlt)]
      exact ih hlt
    · have hfm : f = m := by omega
      subst hfm
      set l := (precompute_loop raw sf f).2 with hl
      have hlen : l.length = f := precompute_loop_snd_length raw sf f
      rw [← hlen, List.getElem?_concat_length]

end AudioVis

namespace AudioVis

lemma forall_mem_zipWith {α β γ : Type} {g : α → β → γ} {p : γ → Prop} :
    ∀ {a : List α} {b : List β}, (∀ x ∈ a, ∀ y ∈ b, p (g x y)) →
      ∀ z ∈ List.zipWith g a b, p z := by
  intro a
  induction a with
  | nil => intro b _ z hz; simp at hz
  | cons x xs ih =>
    intro b h z hz
    cases b with
    | nil => simp at hz
    | cons y ys =>
      simp only [List.zipWith_cons_cons, List.mem_cons] at hz
      rcases hz with rfl | hz
      · exact h x (by simp) y (by simp)
      · exact ih (fun u hu v hv => h u (by simp [hu]) v (by simp [hv])) z hz

lemma getD_zipWith (g : ℝ → ℝ → ℝ) :
    ∀ (a b : List ℝ) (i : ℕ), i < a.length → i < b.length →
      (List.zipWith g a b).getD i 0 = g (a.getD i 0) (b.getD i 0) := by
  intro a
  induction a with
  | nil => intro b i hi; simp at hi
  | cons x xs ih =>
    intro b i hia hib
    cases b with
    | nil => simp at hib
    | cons y ys =>
      cases i with
      | zero => rfl
      | succ k =>
        simp only [List.zipWith_cons_cons, List.getD_cons_succ]
        exact ih ys k (by simpa using hia) (by simpa using hib)

lemma list_sum_nonneg (l : List ℝ) (h : ∀ x ∈ l, 0 ≤ x) : 0 ≤ l.sum := by
  induction l with
  | nil => simp
  | cons x xs ih =>
    simp only [List.sum_cons]
    have hx := h x (by simp)
    have hxs := ih (fun y hy => h y (by simp [hy]))
    linarith

lemma list_sum_le_length (l : List ℝ) (h : ∀ x ∈ l, x ≤ 1) : l.sum ≤ l.length := by
  induction l with
  | nil => simp
  | cons x xs ih =>
    simp only [List.sum_cons, List.length_cons]
    have hx := h x (by simp)
    have hxs := ih (fun y hy => h y (by simp [hy]))
    push_cast
    linarith

lemma raw_bar_heights_length (d : List ℝ) (nb : ℕ) :
    (raw_bar_heights d nb).length = nb := by
  simp [raw_bar_heights]

lemma raw_bar_heights_circular_length (d : List ℝ) (nb : ℕ) :
    (raw_bar_heights_circular d nb).length = nb := by
  simp [raw_bar_heights_circular]

lemma raw_bar_heights_floor (d : List ℝ) (nb : ℕ) :
    ∀ x ∈ raw_bar_heights d nb, 1 / 1000000 ≤ x := by
  intro x hx
  unfold raw_bar_heights at hx
  simp only [List.mem_map, List.mem_range] at hx
  obtain ⟨i, _, rfl⟩ := hx
  by_cases hc : i * (d.length / nb) <
      min (if i = nb - 1 then d.length else (i + 1) * (d.length / nb)) d.length
  · rw [if_pos hc]
    exact le_max_right _ _
  · rw [if_neg hc]

lemma raw_bar_heights_circular_floor (d : List ℝ) (nb : ℕ) :
    ∀ x ∈ raw_bar_heights_circular d nb, 1 / 100 ≤ x := by
  intro x hx
  unfold raw_bar_heights_circular at hx
  simp only [List.mem_map, List.mem_range] at hx
  obtain ⟨i, _, rfl⟩ := hx
  by_cases hc : i * (d.length / nb) < min ((i + 1) * (d.length / nb)) d.length
  · rw [if_pos hc]
    exact le_max_right _ _
  · rw [if_neg hc]

lemma heights_rec_lower (raw : ℕ → List ℝ) (sf c : ℝ) (h0 : 0 ≤ sf) (h1 : sf ≤ 1)
    (hraw : ∀ f, ∀ x ∈ raw f, c ≤ x) :
    ∀ f, ∀ x ∈ heights_rec raw sf f, c ≤ x := by
  intro f
  induction f with
  | zero => exact hraw 0
  | succ m ih =>
    intro x hx
    unfold heights_rec smooth_heights at hx
    refine forall_mem_zipWith (p := fun z => c ≤ z) ?_ x hx
    intro p hp q hq
    have hcp := ih p hp
    have hcq := hraw (m + 1) q hq
    have t1 : sf * c ≤ sf * p := mul_le_mul_of_nonneg_left hcp h0
    have t2 : (1 - sf) * c ≤ (1 - sf) * q :=
      mul_le_mul_of_nonneg_left hcq (by linarith)
    nlinarith

lemma heights_rec_upper (raw : ℕ → List ℝ) (sf : ℝ) (h0 : 0 ≤ sf) (h1 : sf ≤ 1)
    (hraw : ∀ f, ∀ x ∈ raw f, x ≤ 1) :
    ∀ f, ∀ x ∈ heights_rec raw sf f, x ≤ 1 := by
  intro f
  induction f with
  | zero => exact hraw 0
  | succ m ih =>
    intro x hx
    unfold heights_rec smooth_heights at hx
    refine forall_mem_zipWith (p := fun z => z ≤ 1) ?_ x hx
    intro p hp q hq
    have hcp := ih p hp
    have hcq := hraw (m + 1) q hq
    have t1 : sf * p ≤ sf * 1 := mul_le_mul_of_nonneg_left hcp h0
    have t2 : (1 - sf) * q ≤ (1 - sf) * 1 :=
      mul_le_mul_of_nonneg_left hcq (by linarith)
    nlinarith

lemma heights_rec_length (raw : ℕ → List ℝ) (sf : ℝ) (nb : ℕ)
    (h : ∀ f, (raw f).length = nb) : ∀ f, (heights_rec raw sf f).length = nb := by
  intro f
  induction f with
  | zero => exact h 0
  | succ m ih =>
    unfold heights_rec smooth_heights
    rw [List.length_zipWith, ih, h (m + 1), Nat.min_self]

lemma getD_mem_of_lt (l : List ℝ) (i : ℕ) (h : i < l.length) : l.getD i 0 ∈ l := by
  rw [List.getD_eq_getElem?_getD]
  rw [List.getElem?_eq_getElem h]
  exact List.getElem_mem h

/-- Entry of a precompute loop's output table at frame `f < n`, bar `i`. -/
lemma entry_loop (raw : ℕ → List ℝ) (sf : ℝ) (n f i : ℕ) (hf : f < n) :
    entry ((precompute_loop raw sf n).2) f i =
      (heights_rec raw sf f).getD i 0 := by
  unfold entry
  rw [List.getD_eq_getElem?_getD ((precompute_loop raw sf n).2) f [],
    precompute_loop_getElem raw sf n f hf]
  rfl

end AudioVis

namespace AudioVis

lemma heights_rec_step_getD (raw : ℕ → List ℝ) (sf : ℝ) (nb g i : ℕ)
    (hlenraw : ∀ k, (raw k).length = nb) (hi : i < nb) :
    (heights_rec raw sf (g + 1)).getD i 0 =
      sf * (heights_rec raw sf g).getD i 0 + (1 - sf) * (raw (g + 1)).getD i 0 := by
  have hlen : (heights_rec raw sf g).length = nb :=
    heights_rec_length raw sf nb hlenraw g
  show (smooth_heights sf (heights_rec raw sf g) (raw (g + 1))).getD i 0 = _
  unfold smooth_heights
  exact getD_zipWith _ _ _ i (by rw [hlen]; exact hi) (by rw [hlenraw]; exact hi)

/-- C4: the stored heights satisfy the smoothing recurrence
`height[f] = 0.5 * height[f-1] + (1 - 0.5) * raw_height[f]` for `f ≥ 1`,
where `height[f-1]` is the previously *stored* (smoothed) row, and frame 0
stores the raw (floored) heights unsmoothed. -/
theorem smoothing_recurrence (mag : ℕ → List ℝ) (num_bars frame_count f : ℕ)
    (hf1 : 1 ≤ f) (hf : f < frame_count) :
    (∃ hp, (precompute_animation_heights mag num_bars frame_count)[f - 1]? = some hp ∧
      (precompute_animation_heights mag num_bars frame_count)[f]? =
        some (smooth_heights (1 / 2) hp
          (raw_bar_heights (apply_freq_weights (mag f)) num_bars))) ∧
    (precompute_animation_heights mag num_bars frame_count)[0]? =
      some (raw_bar_heights (apply_freq_weights (mag 0)) num_bars) := by
  unfold precompute_animation_heights precompute_heights_with
  refine ⟨⟨heights_rec
      (fun g => raw_bar_heights (apply_freq_weights (mag g)) num_bars) (1 / 2) (f - 1),
    precompute_loop_getElem _ _ _ _ (by omega), ?_⟩,
    by rw [precompute_loop_getElem _ _ _ _ (show 0 < frame_count by omega)]; rfl⟩
  rw [precompute_loop_getElem _ _ _ _ hf]
  obtain ⟨g, rfl⟩ : ∃ g, f = g + 1 := ⟨f - 1, by omega⟩
  simp [heights_rec]

/-- Witness for `smoothing_recurrence` at a one-bar, two-frame input. -/
theorem smoothing_recurrence_witness :
    (1 ≤ 1 ∧ 1 < 2) ∧
    ((∃ hp, (precompute_animation_heights (fun _ => [0]) 1 2)[1 - 1]? = some hp ∧
      (precompute_animation_heights (fun _ => [0]) 1 2)[1]? =
        some (smooth_heights (1 / 2) hp
          (raw_bar_heights (apply_freq_weights ((fun _ : ℕ => [(0 : ℝ)]) 1)) 1))) ∧
     (precompute_animation_heights (fun _ => [0]) 1 2)[0]? =
       some (raw_bar_heights (apply_freq_weights ((fun _ : ℕ => [(0 : ℝ)]) 0)) 1)) :=
  ⟨by norm_num, smoothing_recurrence (fun _ => [0]) 1 2 1 (by norm_num) (by norm_num)⟩

/-- C8: for any smoothing factor in `[0, 1)`, a smoothed step never
overshoots the raw delta:
`|height[f][i] - height[f-1][i]| ≤ |raw[f][i] - height[f-1][i]|`. -/
theorem smoothing_monotone_bound (mag : ℕ → List ℝ) (num_bars frame_count : ℕ)
    (sf : ℝ) (hsf0 : 0 ≤ sf) (hsf1 : sf < 1) (f i : ℕ) (hf1 : 1 ≤ f)
    (hf : f < frame_count) (hi : i < num_bars) :
    |entry (precompute_heights_with sf mag num_bars frame_count) f i -
      entry (precompute_heights_with sf mag num_bars frame_count) (f - 1) i| ≤
    |(raw_bar_heights (apply_freq_weights (mag f)) num_bars).getD i 0 -
      entry (precompute_heights_with sf mag num_bars frame_count) (f - 1) i| := by
  unfold precompute_heights_with
  rw [entry_loop _ sf frame_count f i hf,
    entry_loop _ sf frame_count (f - 1) i (by omega)]
  obtain ⟨g, rfl⟩ : ∃ g, f = g + 1 := ⟨f - 1, by omega⟩
  simp only [Nat.add_sub_cancel]
  rw [heights_rec_step_getD _ sf num_bars g i
    (fun k => raw_bar_heights_length _ _) hi]
  set p := (heights_rec
    (fun k => raw_bar_heights (apply_freq_weights (mag k)) num_bars) sf g).getD i 0
  set c := (raw_bar_heights (apply_freq_weights (mag (g + 1))) num_bars).getD i 0
  have h1 : sf * p + (1 - sf) * c - p = (1 - sf) * (c - p) := by ring
  rw [h1, abs_mul, abs_of_nonneg (show (0 : ℝ) ≤ 1 - sf by linarith)]
  have h2 := abs_nonneg (c - p)
  nlinarith

/-- Witness for `smoothing_monotone_bound` at `sf = 0`, a one-bar two-frame
input. -/
theorem smoothing_monotone_bound_witness :
    ((0 : ℝ) ≤ 0 ∧ (0 : ℝ) < 1 ∧ 1 ≤ 1 ∧ 1 < 2 ∧ 0 < 1) ∧
    |entry (precompute_heights_with 0 (fun _ => [0]) 1 2) 1 0 -
      entry (precompute_heights_with 0 (fun _ => [0]) 1 2) (1 - 1) 0| ≤
    |(raw_bar_heights (apply_freq_weights ((fun _ : ℕ => [(0 : ℝ)]) 1)) 1).getD 0 0 -
      entry (precompute_heights_with 0 (fun _ => [0]) 1 2) (1 - 1) 0| :=
  ⟨by norm_num,
   smoothing_monotone_bound (fun _ => [0]) 1 2 0 (by norm_num) (by norm_num) 1 0
     (by norm_num) (by norm_num) (by norm_num)⟩

end AudioVis

namespace AudioVis

/-- C5 counterexample: in audioFile_matplotlib_visualiser.py the flooring
constant is `1e-6`, not `0.01` — a silent frame produces a precomputed bar
height of exactly `1e-6`, which is below the claimed floor `0.01`. -/
theorem height_floor_not_001 :
    entry (precompute_animation_heights (fun _ => [0]) 1 1) 0 0 = 1 / 1000000 ∧
    ¬ (1 / 100 ≤ entry (precompute_animation_heights (fun _ => [0]) 1 1) 0 0) := by
  have h : entry (precompute_animation_heights (fun _ => [0]) 1 1) 0 0 = 1 / 1000000 := by
    simp [entry, precompute_animation_heights, precompute_heights_with, precompute_loop,
      heights_rec, raw_bar_heights, apply_freq_weights, linspace, slice_rms,
      Real.sqrt_zero]
  refine ⟨h, by rw [h]; norm_num⟩

/-- C5 (amended): every precomputed height is at least the script's own floor
constant — `1e-6` for audioFile_matplotlib_visualiser.py, `0.01` for the
circular variant — and in particular strictly positive, never zero, for every
frame and bar (including empty bin groups and smoothed frames). -/
theorem height_floor (mag : ℕ → List ℝ) (num_bars frame_count f i : ℕ)
    (hf : f < frame_count) (hi : i < num_bars) :
    (1 / 1000000 ≤ entry (precompute_animation_heights mag num_bars frame_count) f i ∧
     0 < entry (precompute_animation_heights mag num_bars frame_count) f i) ∧
    (1 / 100 ≤ entry (precompute_circular_heights mag num_bars frame_count) f i ∧
     0 < entry (precompute_circular_heights mag num_bars frame_count) f i) := by
  constructor
  · unfold precompute_animation_heights precompute_heights_with
    rw [entry_loop _ (1 / 2) frame_count f i hf]
    have hmem : (heights_rec
        (fun g => raw_bar_heights (apply_freq_weights (mag g)) num_bars)
        (1 / 2) f).getD i 0 ∈ heights_rec
        (fun g => raw_bar_heights (apply_freq_weights (mag g)) num_bars) (1 / 2) f := by
      apply getD_mem_of_lt
      rw [heights_rec_length _ _ num_bars (fun k => raw_bar_heights_length _ _)]
      exact hi
    have hlow := heights_rec_lower _ (1 / 2) (1 / 1000000) (by norm_num) (by norm_num)
      (fun k => raw_bar_heights_floor _ _) f _ hmem
    exact ⟨hlow, lt_of_lt_of_le (by norm_num) hlow⟩
  · unfold precompute_circular_heights
    rw [entry_loop _ (1 / 2) frame_count f i hf]
    have hmem : (heights_rec
        (fun g => raw_bar_heights_circular (apply_freq_weights (mag g)) num_bars)
        (1 / 2) f).getD i 0 ∈ heights_rec
        (fun g => raw_bar_heights_circular (apply_freq_weights (mag g)) num_bars)
        (1 / 2) f := by
      apply getD_mem_of_lt
      rw [heights_rec_length _ _ num_bars
        (fun k => raw_bar_heights_circular_length _ _)]
      exact hi
    have hlow := heights_rec_lower _ (1 / 2) (1 / 100) (by norm_num) (by norm_num)
      (fun k => raw_bar_heights_circular_floor _ _) f _ hmem
    exact ⟨hlow, lt_of_lt_of_le (by norm_num) hlow⟩

/-- Witness for `height_floor` on a one-bar, one-frame silent input. -/
theorem height_floor_witness :
    (0 < 1 ∧ 0 < 1) ∧
    ((1 / 1000000 ≤ entry (precompute_animation_heights (fun _ => [0]) 1 1) 0 0 ∧
      0 < entry (precompute_animation_heights (fun _ => [0]) 1 1) 0 0) ∧
     (1 / 100 ≤ entry (precompute_circular_heights (fun _ => [0]) 1 1) 0 0 ∧
      0 < entry (precompute_circular_heights (fun _ => [0]) 1 1) 0 0)) :=
  ⟨by norm_num, height_floor (fun _ => [0]) 1 1 0 0 (by norm_num) (by norm_num)⟩

end AudioVis

namespace AudioVis

lemma linspace_weight_bounds (n : ℕ) :
    ∀ w ∈ linspace 1 (3 / 10) n, 0 ≤ w ∧ w ≤ 1 := by
  intro w hw
  unfold linspace at hw
  by_cases h1 : n = 1
  · rw [if_pos h1] at hw
    simp at hw
    subst hw
    norm_num
  · rw [if_neg h1] at hw
    simp only [List.mem_map, List.mem_range] at hw
    obtain ⟨k, hk, rfl⟩ := hw
    have hn0 : n ≠ 0 := by
      intro h0
      rw [h0] at hk
      omega
    have hn2 : 2 ≤ n := by omega
    have hpos : (0 : ℝ) < (n : ℝ) - 1 := by
      have h2 : (2 : ℝ) ≤ (n : ℝ) := by exact_mod_cast hn2
      linarith
    have hk1 : (k : ℝ) + 1 ≤ (n : ℝ) := by
      have hx : k + 1 ≤ n := hk
      exact_mod_cast hx
    have hq0 : 0 ≤ (k : ℝ) / ((n : ℝ) - 1) :=
      div_nonneg (Nat.cast_nonneg k) (le_of_lt hpos)
    have hq1 : (k : ℝ) / ((n : ℝ) - 1) ≤ 1 := (div_le_one hpos).mpr (by linarith)
    rw [mul_div_assoc]
    constructor
    · linarith
    · linarith

lemma apply_freq_weights_bounds (d : List ℝ) (hd : ∀ x ∈ d, 0 ≤ x ∧ x ≤ 1) :
    ∀ x ∈ apply_freq_weights d, 0 ≤ x ∧ x ≤ 1 := by
  unfold apply_freq_weights
  refine forall_mem_zipWith ?_
  intro x hx w hw
  obtain ⟨hx0, hx1⟩ := hd x hx
  obtain ⟨hw0, hw1⟩ := linspace_weight_bounds d.length w hw
  exact ⟨mul_nonneg hx0 hw0, by nlinarith⟩

lemma slice_rms_bounds (l : List ℝ) (s e : ℕ) (h : ∀ x ∈ l, 0 ≤ x ∧ x ≤ 1) :
    0 ≤ slice_rms l s e ∧ slice_rms l s e ≤ 1 := by
  unfold slice_rms
  refine ⟨Real.sqrt_nonneg _, ?_⟩
  rw [Real.sqrt_le_one]
  set seg := (l.drop s).take (e - s) with hseg
  have hsegmem : ∀ x ∈ seg, 0 ≤ x ∧ x ≤ 1 := fun x hx =>
    h x (List.mem_of_mem_drop (List.mem_of_mem_take hx))
  rcases Nat.eq_zero_or_pos seg.length with hlen | hlen
  · have hnil : seg = [] := List.length_eq_zero.mp hlen
    rw [hnil]
    norm_num
  · have hsum1 : ((seg.map fun x => x ^ 2).sum : ℝ) ≤
        ((seg.map fun x => x ^ 2).length : ℝ) := by
      apply list_sum_le_length
      intro y hy
      simp only [List.mem_map] at hy
      obtain ⟨x, hx, rfl⟩ := hy
      obtain ⟨h0, h1⟩ := hsegmem x hx
      nlinarith
    rw [List.length_map] at hsum1
    have hposl : (0 : ℝ) < (seg.length : ℝ) := by exact_mod_cast hlen
    rw [div_le_one hposl]
    exact hsum1

lemma raw_bar_heights_le_one (d : List ℝ) (nb : ℕ) (hd : ∀ x ∈ d, 0 ≤ x ∧ x ≤ 1) :
    ∀ x ∈ raw_bar_heights d nb, x ≤ 1 := by
  intro x hx
  unfold raw_bar_heights at hx
  simp only [List.mem_map, List.mem_range] at hx
  obtain ⟨i, _, rfl⟩ := hx
  by_cases hc : i * (d.length / nb) <
      min (if i = nb - 1 then d.length else (i + 1) * (d.length / nb)) d.length
  · rw [if_pos hc]
    exact max_le (slice_rms_bounds d _ _ hd).2 (by norm_num)
  · rw [if_neg hc]
    norm_num

/-- C9: if the (normalized) magnitude entries lie in `[0, 1]`, every
precomputed bar height — RMS of weighted values, floored at `1e-6`, and then
any number of smoothing steps — lies in `(0, 1]`, inside the fixed
`ylim = 1.05` display range. -/
theorem heights_in_unit_interval (mag : ℕ → List ℝ) (num_bars frame_count : ℕ)
    (hmag : ∀ g, ∀ x ∈ mag g, 0 ≤ x ∧ x ≤ 1) (f i : ℕ)
    (hf : f < frame_count) (hi : i < num_bars) :
    0 < entry (precompute_animation_heights mag num_bars frame_count) f i ∧
    entry (precompute_animation_heights mag num_bars frame_count) f i ≤ 1 := by
  unfold precompute_animation_heights precompute_heights_with
  rw [entry_loop _ (1 / 2) frame_count f i hf]
  have hmem : (heights_rec
      (fun g => raw_bar_heights (apply_freq_weights (mag g)) num_bars)
      (1 / 2) f).getD i 0 ∈ heights_rec
      (fun g => raw_bar_heights (apply_freq_weights (mag g)) num_bars) (1 / 2) f := by
    apply getD_mem_of_lt
    rw [heights_rec_length _ _ num_bars (fun k => raw_bar_heights_length _ _)]
    exact hi
  constructor
  · have hlow := heights_rec_lower _ (1 / 2) (1 / 1000000) (by norm_num) (by norm_num)
      (fun k => raw_bar_heights_floor _ _) f _ hmem
    linarith
  · exact heights_rec_upper _ (1 / 2) (by norm_num) (by norm_num)
      (fun k => raw_bar_heights_le_one _ _ (apply_freq_weights_bounds _ (hmag k)))
      f _ hmem

/-- Witness for `heights_in_unit_interval` on a one-bar, one-frame input with
magnitude 1. -/
theorem heights_in_unit_interval_witness :
    ((∀ g : ℕ, ∀ x ∈ [(1 : ℝ)], 0 ≤ x ∧ x ≤ 1) ∧ 0 < 1 ∧ 0 < 1) ∧
    (0 < entry (precompute_animation_heights (fun _ => [1]) 1 1) 0 0 ∧
     entry (precompute_animation_heights (fun _ => [1]) 1 1) 0 0 ≤ 1) :=
  ⟨⟨by
      intro _g x hx
      simp only [List.mem_singleton] at hx
      subst hx
      norm_num, by norm_num, by norm_num⟩,
   heights_in_unit_interval (fun _ => [1]) 1 1
     (by
       intro _g x hx
       simp only [List.mem_singleton] at hx
       subst hx
       norm_num) 0 0 (by norm_num) (by norm_num)⟩

end AudioVis

namespace AudioVis

/-! ### Spectral normalization.  FileVisualizer.__init__ (lines 34-41 of
audioFile_matplotlib_visualiser.py, same loop in alternativeVisualization.py
lines 68-75) normalizes each frequency bin by that bin's maximum across
time; CircularAudioVisualizer.__init__ (lines 42-44 of deepseekVisualise.py)
instead divides the whole log-compressed matrix by its single global
maximum, unconditionally. -/

noncomputable section

/-- `np.log1p(x)` — the `log(1 + x)` compression applied to the magnitudes
(line 35). -/
def log1p (x : ℝ) : ℝ := Real.log (1 + x)

/-- `np.max` of a vector: its greatest element (`0` for an empty vector). -/
def npMax (l : List ℝ) : ℝ := l.foldl max (l.headD 0)

/-- Lines 38-41: one frequency bin's whole time-series is divided by its
maximum when that maximum is positive, and left untouched otherwise. -/
def normalizeRow (row : List ℝ) : List ℝ :=
  if 0 < npMax row then row.map (fun x => x / npMax row) else row

/-- Lines 35-41 of audioFile_matplotlib_visualiser.py: log-compress the
magnitude matrix (rows = frequency bins, columns = frames), then normalize
each row across time. -/
def normalize_magnitude (m : List (List ℝ)) : List (List ℝ) :=
  (m.map (List.map log1p)).map normalizeRow

/-- Lines 43-44 of deepseekVisualise.py:
`self.magnitude = np.log1p(self.magnitude)` followed by
`self.magnitude /= np.max(self.magnitude)` — every entry is divided by the
matrix-wide maximum, with no per-bin maxima and no zero-max guard. -/
def normalize_magnitude_global (m : List (List ℝ)) : List (List ℝ) :=
  (m.map (List.map log1p)).map fun row =>
    row.map fun x => x / npMax (m.map (List.map log1p)).flatten

end

lemma le_foldl_max_init : ∀ (l : List ℝ) (a : ℝ), a ≤ l.foldl max a
  | [], a => le_refl a
  | x :: xs, a => le_trans (le_max_left a x) (le_foldl_max_init xs (max a x))

lemma mem_le_foldl_max : ∀ (l : List ℝ) (a : ℝ), ∀ x ∈ l, x ≤ l.foldl max a := by
  intro l
  induction l with
  | nil => intro a x hx; simp at hx
  | cons y ys ih =>
    intro a x hx
    rcases List.mem_cons.mp hx with rfl | hx
    · exact le_trans (le_max_right a x) (le_foldl_max_init ys (max a x))
    · exact ih (max a y) x hx

lemma le_npMax (l : List ℝ) : ∀ x ∈ l, x ≤ npMax l := fun x hx =>
  mem_le_foldl_max l _ x hx

/-- With nonnegative input magnitudes, after `log1p` compression and per-bin
normalization every entry lies in `[0, 1]`; a bin whose maximum is not
positive is left undivided and is all zeros. -/
lemma per_bin_unit_interval (m : List (List ℝ))
    (hm : ∀ row ∈ m, ∀ x ∈ row, 0 ≤ x) :
    (∀ row ∈ normalize_magnitude m, ∀ x ∈ row, 0 ≤ x ∧ x ≤ 1) ∧
    (∀ row ∈ m, ¬ 0 < npMax (row.map log1p) →
      normalizeRow (row.map log1p) = row.map log1p ∧
      ∀ x ∈ row.map log1p, x = 0) := by
  have hlognn : ∀ row ∈ m, ∀ y ∈ row.map log1p, 0 ≤ y := by
    intro row hrow y hy
    simp only [List.mem_map] at hy
    obtain ⟨z, hz, rfl⟩ := hy
    have hz0 := hm row hrow z hz
    unfold log1p
    exact Real.log_nonneg (by linarith)
  constructor
  · intro row hrow x hx
    unfold normalize_magnitude at hrow
    simp only [List.mem_map] at hrow
    obtain ⟨row0, ⟨row1, hrow1, rfl⟩, rfl⟩ := hrow
    have hnn := hlognn row1 hrow1
    unfold normalizeRow at hx
    by_cases hM : 0 < npMax (row1.map log1p)
    · rw [if_pos hM] at hx
      obtain ⟨y, hy, rfl⟩ := List.mem_map.mp hx
      have h0 := hnn y hy
      have hle := le_npMax _ y hy
      exact ⟨div_nonneg h0 (le_of_lt hM), (div_le_one hM).mpr hle⟩
    · rw [if_neg hM] at hx
      have h0 := hnn x hx
      have hle := le_npMax _ x hx
      push_neg at hM
      exact ⟨h0, by linarith⟩
  · intro row hrow hM
    refine ⟨by unfold normalizeRow; rw [if_neg hM], ?_⟩
    intro x hx
    have h0 := hlognn row hrow x hx
    have hle := le_npMax _ x hx
    push_neg at hM
    linarith

lemma npMax_pair_12 : npMax [(1 : ℝ), 2] = 2 := by
  unfold npMax
  simp only [List.headD_cons, List.foldl_cons, List.foldl_nil]
  rw [max_self]
  exact max_eq_right (by norm_num)

lemma npMax_single (a : ℝ) : npMax [a] = a := by
  unfold npMax
  simp only [List.headD_cons, List.foldl_cons, List.foldl_nil]
  exact max_self a

/-- C6 counterexample: deepseekVisualise.py (cited by the claim) normalizes
globally, not per bin.  On a two-bin, one-frame input whose log-compressed
magnitudes are 1 and 2, the code stores `[[1/2], [1]]` — the first bin never
reaches 1 — whereas the claim's per-bin rule (divide each bin's series by
that bin's own maximum) would store `[[1], [1]]`. -/
theorem global_normalization_not_per_bin :
    normalize_magnitude_global [[Real.exp 1 - 1], [Real.exp 2 - 1]] =
      [[1 / 2], [1]] ∧
    normalize_magnitude [[Real.exp 1 - 1], [Real.exp 2 - 1]] = [[1], [1]] ∧
    normalize_magnitude_global [[Real.exp 1 - 1], [Real.exp 2 - 1]] ≠
      normalize_magnitude [[Real.exp 1 - 1], [Real.exp 2 - 1]] := by
  have h1 : log1p (Real.exp 1 - 1) = 1 := by
    unfold log1p
    rw [show (1 : ℝ) + (Real.exp 1 - 1) = Real.exp 1 by ring, Real.log_exp]
  have h2 : log1p (Real.exp 2 - 1) = 2 := by
    unfold log1p
    rw [show (1 : ℝ) + (Real.exp 2 - 1) = Real.exp 2 by ring, Real.log_exp]
  have hmap : ([[Real.exp 1 - 1], [Real.exp 2 - 1]].map (List.map log1p)) =
      [[(1 : ℝ)], [2]] := by
    simp [h1, h2]
  have hflat : ([[(1 : ℝ)], [2]] : List (List ℝ)).flatten = [1, 2] := by
    simp
  have hg : normalize_magnitude_global [[Real.exp 1 - 1], [Real.exp 2 - 1]] =
      [[1 / 2], [1]] := by
    unfold normalize_magnitude_global
    rw [hmap, hflat, npMax_pair_12]
    norm_num
  have hp : normalize_magnitude [[Real.exp 1 - 1], [Real.exp 2 - 1]] =
      [[1], [1]] := by
    unfold normalize_magnitude
    rw [hmap]
    have hr1 : normalizeRow [(1 : ℝ)] = [1] := by
      unfold normalizeRow
      rw [npMax_single]
      norm_num
    have hr2 : normalizeRow [(2 : ℝ)] = [1] := by
      unfold normalizeRow
      rw [npMax_single]
      norm_num
    simp [hr1, hr2]
  refine ⟨hg, hp, ?_⟩
  intro hcontra
  have hentry := congrArg (fun l : List (List ℝ) => (l.getD 0 []).getD 0 0) hcontra
  rw [hg, hp] at hentry
  simp only [List.getD_cons_zero] at hentry
  norm_num at hentry

/-- C6 (amended): the matplotlib visualiser (and alternativeVisualization)
normalizes per frequency bin — dividing each bin's series by that bin's
maximum, skipping the divide (leaving zeros) when the maximum is zero, with
all results in `[0, 1]` — while deepseekVisualise.py divides every entry by
the single matrix-wide maximum, which also lands in `[0, 1]` whenever that
global maximum is positive. -/
theorem normalization_correct (m : List (List ℝ))
    (hm : ∀ row ∈ m, ∀ x ∈ row, 0 ≤ x) :
    ((∀ row ∈ normalize_magnitude m, ∀ x ∈ row, 0 ≤ x ∧ x ≤ 1) ∧
     (∀ row ∈ m, ¬ 0 < npMax (row.map log1p) →
       normalizeRow (row.map log1p) = row.map log1p ∧
       ∀ x ∈ row.map log1p, x = 0)) ∧
    (0 < npMax (m.map (List.map log1p)).flatten →
      ∀ row ∈ normalize_magnitude_global m, ∀ x ∈ row, 0 ≤ x ∧ x ≤ 1) := by
  refine ⟨per_bin_unit_interval m hm, ?_⟩
  intro hgm row hrow x hx
  unfold normalize_magnitude_global at hrow
  obtain ⟨row1, hrow1, rfl⟩ := List.mem_map.mp hrow
  obtain ⟨y, hy, rfl⟩ := List.mem_map.mp hx
  have hy0 : 0 ≤ y := by
    obtain ⟨row0, hrow0, rfl⟩ := List.mem_map.mp hrow1
    obtain ⟨z, hz, rfl⟩ := List.mem_map.mp hy
    have hz0 := hm row0 hrow0 z hz
    unfold log1p
    exact Real.log_nonneg (by linarith)
  have hyle : y ≤ npMax (m.map (List.map log1p)).flatten :=
    le_npMax _ y (List.mem_flatten.mpr ⟨row1, hrow1, hy⟩)
  exact ⟨div_nonneg hy0 (le_of_lt hgm), (div_le_one hgm).mpr hyle⟩

/-- Witness for `normalization_correct` on the one-bin, one-frame zero
matrix. -/
theorem normalization_correct_witness :
    (∀ row ∈ [[(0 : ℝ)]], ∀ x ∈ row, 0 ≤ x) ∧
    (((∀ row ∈ normalize_magnitude [[(0 : ℝ)]], ∀ x ∈ row, 0 ≤ x ∧ x ≤ 1) ∧
      (∀ row ∈ [[(0 : ℝ)]], ¬ 0 < npMax (row.map log1p) →
        normalizeRow (row.map log1p) = row.map log1p ∧
        ∀ x ∈ row.map log1p, x = 0)) ∧
     (0 < npMax ([[(0 : ℝ)]].map (List.map log1p)).flatten →
       ∀ row ∈ normalize_magnitude_global [[(0 : ℝ)]], ∀ x ∈ row,
         0 ≤ x ∧ x ≤ 1)) := by
  have h : ∀ row ∈ [[(0 : ℝ)]], ∀ x ∈ row, 0 ≤ x := by
    intro row hrow x hx
    simp only [List.mem_singleton] at hrow
    subst hrow
    simp only [List.mem_singleton] at hx
    subst hx
    exact le_refl 0
  exact ⟨h, normalization_correct [[(0 : ℝ)]] h⟩

end AudioVis

namespace AudioVis

/-! ### Frame count and duration (FileVisualizer.__init__, lines 27-31 and
95-98 of audioFile_matplotlib_visualiser.py) -/

/-- Modelled from the spec and the called library's documented default:
`librosa.stft(y, hop_length)` (line 31; librosa is an external dependency,
its source is not in this repository) uses `n_fft = 2048`, `center = True`,
padding the signal by `n_fft / 2` on both sides, so the magnitude matrix has
`1 + len(y) // hop_length` columns; `self.frame_count = magnitude.shape[1]`
(line 95). -/
def stft_frame_count (n hop : ℕ) : ℕ := n / hop + 1

/-- The frame-count formula exactly as the specification states it:
`floor((len(samples) - window_length) / hop_length) + 1`. -/
def spec_frame_count (n window hop : ℕ) : ℕ := (n - window) / hop + 1

/-- `self.total_duration = self.frame_count * self.hop_length / self.sr`
(line 98). -/
def total_duration (frame_count hop : ℕ) (sr : ℚ) : ℚ :=
  (frame_count : ℚ) * (hop : ℚ) / sr

/-- C7 counterexample: at the spec's own scenario — a 10-second 22050 Hz
waveform (220500 samples) with `hop_length = 256` and the default window
`n_fft = 2048` — the centered transform the code invokes produces 862
columns while the claimed formula gives 854: off by 8 frames, not within
±1. -/
theorem frame_count_formula_off_by_eight :
    stft_frame_count 220500 256 = 862 ∧
    spec_frame_count 220500 2048 256 = 854 ∧
    ¬ (stft_frame_count 220500 256 - spec_frame_count 220500 2048 256 ≤ 1) := by
  refine ⟨rfl, rfl, ?_⟩
  decide

/-- C7 (amended): with the defaults (`hop = 256`, window `n_fft = 2048`) and
an input of at least one window, the code's frame count is
`floor(len / hop) + 1` — exactly `window / hop = 8` more than the spec's
non-centered formula — and the total duration is
`frame_count * hop_length / sample_rate`. -/
theorem frame_count_centered (n : ℕ) (hn : 2048 ≤ n) (sr : ℚ) :
    stft_frame_count n 256 = spec_frame_count n 2048 256 + 8 ∧
    total_duration (stft_frame_count n 256) 256 sr =
      ((n / 256 + 1 : ℕ) : ℚ) * 256 / sr := by
  constructor
  · unfold stft_frame_count spec_frame_count
    have h : n = (n - 2048) + 256 * 8 := by omega
    calc n / 256 + 1 = ((n - 2048) + 256 * 8) / 256 + 1 := by rw [← h]
      _ = ((n - 2048) / 256 + 8) + 1 := by
          rw [Nat.add_mul_div_left _ _ (by norm_num : 0 < 256)]
      _ = (n - 2048) / 256 + 1 + 8 := by omega
  · unfold total_duration stft_frame_count
    norm_num

/-- Witness for `frame_count_centered` at the 10-second scenario. -/
theorem frame_count_centered_witness :
    2048 ≤ 220500 ∧
    (stft_frame_count 220500 256 = spec_frame_count 220500 2048 256 + 8 ∧
     total_duration (stft_frame_count 220500 256) 256 22050 =
       ((220500 / 256 + 1 : ℕ) : ℚ) * 256 / 22050) :=
  ⟨by norm_num, frame_count_centered 220500 (by norm_num) 22050⟩

end AudioVis

namespace AudioVis

/-! ### Color animation (precompute_colors and get_vibgyor_colors, lines
206-248 of audioFile_matplotlib_visualiser.py) -/

/-- The VIBGYOR palette (lines 53-61), with `hex_to_rgb` applied to the seven
hex constants. -/
def vibgyor_colors : List (ℤ × ℤ × ℤ) :=
  [(139, 0, 255), (75, 0, 130), (0, 0, 255), (0, 255, 0),
   (255, 255, 0), (255, 127, 0), (255, 0, 0)]

/-- `interpolate_color` (lines 195-204): per-channel linear interpolation
`rgb1 + factor * (rgb2 - rgb1)`, truncated to integers by `rgb_to_hex`'s
`int(...)`. -/
def interpolate_color (c1 c2 : ℤ × ℤ × ℤ) (factor : ℚ) : ℤ × ℤ × ℤ :=
  (pyInt ((c1.1 : ℚ) + factor * ((c2.1 : ℚ) - (c1.1 : ℚ))),
   pyInt ((c1.2.1 : ℚ) + factor * ((c2.2.1 : ℚ) - (c1.2.1 : ℚ))),
   pyInt ((c1.2.2 : ℚ) + factor * ((c2.2.2 : ℚ) - (c1.2.2 : ℚ))))

/-- `precompute_colors` (lines 206-221): cache row `i` holds `steps = 50`
interpolations from palette color `i` toward palette color `(i + 1) % 7`,
at factors `step / steps`. -/
def color_cache (i : ℕ) : List (ℤ × ℤ × ℤ) :=
  (List.range 50).map (fun step : ℕ =>
    interpolate_color (vibgyor_colors.getD i (0, 0, 0))
      (vibgyor_colors.getD ((i + 1) % 7) (0, 0, 0)) ((step : ℚ) / 50))

/-- `bars_per_color = self.num_bars / len(self.vibgyor_colors)` (line 226). -/
def bars_per_color (num_bars : ℕ) : ℚ := (num_bars : ℚ) / 7

/-- `frame_offset = (frame * 0.002) % len(self.vibgyor_colors)` (line 229). -/
def frame_offset (frame : ℕ) : ℚ := pyMod ((frame : ℚ) * (2 / 1000)) 7

/-- `position = (i + frame_offset * bars_per_color) / bars_per_color`
(line 233). -/
def color_position (frame i num_bars : ℕ) : ℚ :=
  ((i : ℚ) + frame_offset frame * bars_per_color num_bars) / bars_per_color num_bars

/-- `color_idx = int(position) % len(self.vibgyor_colors)` (line 236). -/
def color_idx (frame i num_bars : ℕ) : ℤ :=
  pyInt (color_position frame i num_bars) % 7

/-- `interpolation_factor = position - int(position)` (line 239). -/
def interpolation_factor (frame i num_bars : ℕ) : ℚ :=
  color_position frame i num_bars - (pyInt (color_position frame i num_bars) : ℚ)

/-- `step_idx = int(interpolation_factor * (len(self.color_cache[color_idx]) - 1))`
(line 243). -/
def step_idx (frame i num_bars : ℕ) : ℤ :=
  pyInt (interpolation_factor frame i num_bars *
    (((color_cache (color_idx frame i num_bars).toNat).length - 1 : ℕ) : ℚ))

/-- `get_vibgyor_colors` (lines 223-248): one color per bar, drawn from the
precomputed cache when the palette index is a cache key (it always is), with
the raw palette as the dead fallback branch. -/
def get_vibgyor_colors (frame num_bars : ℕ) : List (ℤ × ℤ × ℤ) :=
  (List.range num_bars).map (fun i : ℕ =>
    if 0 ≤ color_idx frame i num_bars ∧ color_idx frame i num_bars < 7 then
      (color_cache (color_idx frame i num_bars).toNat).getD
        (step_idx frame i num_bars).toNat (0, 0, 0)
    else vibgyor_colors.getD (color_idx frame i num_bars).toNat (0, 0, 0))

lemma pyMod_bounds (x m : ℚ) (hm : 0 < m) : 0 ≤ pyMod x m ∧ pyMod x m < m := by
  unfold pyMod
  have h1 : (⌊x / m⌋ : ℚ) ≤ x / m := Int.floor_le _
  have h2 : x / m < (⌊x / m⌋ : ℚ) + 1 := Int.lt_floor_add_one _
  have hxm : x / m * m = x := div_mul_cancel₀ x (ne_of_gt hm)
  have t1 : (⌊x / m⌋ : ℚ) * m ≤ x / m * m :=
    mul_le_mul_of_nonneg_right h1 (le_of_lt hm)
  have t2 : x / m * m < ((⌊x / m⌋ : ℚ) + 1) * m := by
    exact mul_lt_mul_of_pos_right h2 hm
  rw [hxm] at t1 t2
  constructor
  · nlinarith
  · nlinarith

lemma color_cache_length (k : ℕ) : (color_cache k).length = 50 := by
  simp [color_cache]

lemma color_position_nonneg (frame i num_bars : ℕ) (hnb : 1 ≤ num_bars) :
    0 ≤ color_position frame i num_bars := by
  unfold color_position bars_per_color
  have hb : 0 < (num_bars : ℚ) / 7 := by
    apply div_pos _ (by norm_num)
    exact_mod_cast hnb
  have hoff : 0 ≤ frame_offset frame := (pyMod_bounds _ 7 (by norm_num)).1
  apply div_nonneg _ (le_of_lt hb)
  have : 0 ≤ frame_offset frame * ((num_bars : ℚ) / 7) :=
    mul_nonneg hoff (le_of_lt hb)
  positivity

/-- C10: the interpolation fraction always lies in `[0, 1)`, the cache step
index lies in `[0, steps - 1] = [0, 49]` and is in bounds for the 50-entry
cache row, the palette index is a valid cache key in `[0, 6]`, and the color
function returns exactly `num_bars` colors. -/
theorem color_lookup_safe (frame i num_bars : ℕ) (hnb : 1 ≤ num_bars) :
    (0 ≤ interpolation_factor frame i num_bars ∧
     interpolation_factor frame i num_bars < 1) ∧
    (0 ≤ step_idx frame i num_bars ∧ step_idx frame i num_bars ≤ 49) ∧
    (step_idx frame i num_bars).toNat <
      (color_cache (color_idx frame i num_bars).toNat).length ∧
    (0 ≤ color_idx frame i num_bars ∧ color_idx frame i num_bars < 7) ∧
    (get_vibgyor_colors frame num_bars).length = num_bars := by
  have hpos := color_position_nonneg frame i num_bars hnb
  have hint : pyInt (color_position frame i num_bars) =
      ⌊color_position frame i num_bars⌋ := pyInt_eq_floor _ hpos
  have hfrac : 0 ≤ interpolation_factor frame i num_bars ∧
      interpolation_factor frame i num_bars < 1 := by
    unfold interpolation_factor
    rw [hint]
    constructor
    · linarith [Int.floor_le (color_position frame i num_bars)]
    · linarith [Int.lt_floor_add_one (color_position frame i num_bars)]
  have hstep : 0 ≤ step_idx frame i num_bars ∧ step_idx frame i num_bars ≤ 49 := by
    unfold step_idx
    rw [color_cache_length]
    have h49 : ((50 - 1 : ℕ) : ℚ) = 49 := by norm_num
    rw [h49]
    have harg0 : 0 ≤ interpolation_factor frame i num_bars * 49 :=
      mul_nonneg hfrac.1 (by norm_num)
    have harg1 : interpolation_factor frame i num_bars * 49 < 49 := by
      nlinarith [hfrac.2]
    rw [pyInt_eq_floor _ harg0]
    constructor
    · exact Int.floor_nonneg.mpr harg0
    · have : ⌊interpolation_factor frame i num_bars * 49⌋ < 49 :=
        Int.floor_lt.mpr (by exact_mod_cast harg1)
      omega
  refine ⟨hfrac, hstep, ?_, ?_, ?_⟩
  · rw [color_cache_length]
    omega
  · constructor
    · exact Int.emod_nonneg _ (by norm_num)
    · exact Int.emod_lt_of_pos _ (by norm_num)
  · simp [get_vibgyor_colors]

/-- Witness for `color_lookup_safe` at frame 0, bar 0, 100 bars. -/
theorem color_lookup_safe_witness :
    1 ≤ 100 ∧
    ((0 ≤ interpolation_factor 0 0 100 ∧ interpolation_factor 0 0 100 < 1) ∧
     (0 ≤ step_idx 0 0 100 ∧ step_idx 0 0 100 ≤ 49) ∧
     (step_idx 0 0 100).toNat < (color_cache (color_idx 0 0 100).toNat).length ∧
     (0 ≤ color_idx 0 0 100 ∧ color_idx 0 0 100 < 7) ∧
     (get_vibgyor_colors 0 100).length = 100) :=
  ⟨by norm_num, color_lookup_safe 0 0 100 (by norm_num)⟩

end AudioVis
